import Mathlib

set_option maxRecDepth 8000

/-!
Verification development for the math-markup segmentation and rendering engine
of ai_cli.py. The embedding works over List Char. Regular-expression matching
in the source uses only four fixed patterns per path plus a handful of fixed
rewrite patterns, each compiled here by hand into a deterministic scanner that
realizes the lazy-quantifier semantics of the Python original. Fuel arguments
bound recursions whose measure is the subject length; every wrapper passes a
sufficient fuel, so the functions are total and kernel-computable.
-/

/-- Python str.strip default whitespace set, restricted to the ASCII range
(the inputs of interest are ASCII plus the produced glyphs). -/
def isPySpace (c : Char) : Bool :=
  c = ' ' || c = '\t' || c = '\n' || c = '\r' || c = '\x0b' || c = '\x0c'

/-- Python str.strip with no argument: drop leading and trailing whitespace. -/
def pyStrip (s : List Char) : List Char :=
  ((s.dropWhile isPySpace).reverse.dropWhile isPySpace).reverse

/-- Membership in the explicit strip set of line 210: space, open brace,
close brace. -/
def isBraceSpace (c : Char) : Bool :=
  c = ' ' || c = '\x7b' || c = '\x7d'

/-- The strip call of line 210: drop leading and trailing characters drawn
from space and the two brace characters. -/
def stripSet (s : List Char) : List Char :=
  ((s.dropWhile isBraceSpace).reverse.dropWhile isBraceSpace).reverse

/-- chr of 0x2070 plus the digit value, as in superscript_digits (line 247). -/
def supChar (c : Char) : Char := Char.ofNat (0x2070 + (c.toNat - 48))

/-- chr of 0x2080 plus the digit value, as in subscript_digits (line 250). -/
def subChar (c : Char) : Char := Char.ofNat (0x2080 + (c.toNat - 48))

/-- One re.sub pass with a literal pattern: replace each non-overlapping
occurrence of pat by rep, scanning left to right and resuming after each
replacement. Callers pass the subject length as fuel. -/
def replaceAll (pat rep : List Char) : Nat → List Char → List Char
  | 0, s => s
  | _ + 1, [] => []
  | fuel + 1, c :: cs =>
    if List.isPrefixOf pat (c :: cs) then
      rep ++ replaceAll pat rep fuel (List.drop pat.length (c :: cs))
    else
      c :: replaceAll pat rep fuel cs

/-- Apply a table of literal pattern and replacement pairs in order, one full
substitution pass per pair, exactly as the for loops of lines 227 and 238. -/
def applyTable (tbl : List (List Char × List Char)) (s : List Char) : List Char :=
  tbl.foldl (fun acc q => replaceAll q.1 q.2 acc.length acc) s

/-- The greek dictionary of lines 213 to 226, in insertion order. Each regex
pattern there is a literal backslash command. -/
def greekTable : List (List Char × List Char) :=
  [("\\alpha".toList, "α".toList), ("\\Alpha".toList, "Α".toList),
   ("\\beta".toList, "β".toList), ("\\Beta".toList, "Β".toList),
   ("\\gamma".toList, "γ".toList), ("\\Gamma".toList, "Γ".toList),
   ("\\delta".toList, "δ".toList), ("\\Delta".toList, "Δ".toList),
   ("\\epsilon".toList, "ε".toList), ("\\varepsilon".toList, "ε".toList),
   ("\\Epsilon".toList, "Ε".toList),
   ("\\zeta".toList, "ζ".toList), ("\\eta".toList, "η".toList),
   ("\\theta".toList, "θ".toList), ("\\vartheta".toList, "ϑ".toList),
   ("\\iota".toList, "ι".toList), ("\\kappa".toList, "κ".toList),
   ("\\lambda".toList, "λ".toList), ("\\Lambda".toList, "Λ".toList),
   ("\\mu".toList, "μ".toList), ("\\nu".toList, "ν".toList),
   ("\\xi".toList, "ξ".toList), ("\\Xi".toList, "Ξ".toList),
   ("\\pi".toList, "π".toList), ("\\Pi".toList, "Π".toList),
   ("\\rho".toList, "ρ".toList), ("\\sigma".toList, "σ".toList),
   ("\\tau".toList, "τ".toList), ("\\upsilon".toList, "υ".toList),
   ("\\Upsilon".toList, "Υ".toList),
   ("\\phi".toList, "φ".toList), ("\\varphi".toList, "ϕ".toList),
   ("\\Phi".toList, "Φ".toList),
   ("\\chi".toList, "χ".toList), ("\\psi".toList, "ψ".toList),
   ("\\Psi".toList, "Ψ".toList), ("\\omega".toList, "ω".toList),
   ("\\Omega".toList, "Ω".toList)]

/-- The symbols dictionary of lines 231 to 237, in insertion order. -/
def symbolTable : List (List Char × List Char) :=
  [("\\infty".toList, "∞".toList), ("\\pm".toList, "±".toList),
   ("\\mp".toList, "∓".toList), ("\\sum".toList, "∑".toList),
   ("\\prod".toList, "∏".toList), ("\\int".toList, "∫".toList),
   ("\\partial".toList, "∂".toList), ("\\nabla".toList, "∇".toList),
   ("\\sqrt".toList, "√".toList), ("\\approx".toList, "≈".toList),
   ("\\neq".toList, "≠".toList), ("\\le".toList, "≤".toList),
   ("\\ge".toList, "≥".toList), ("\\times".toList, "×".toList),
   ("\\div".toList, "÷".toList), ("\\to".toList, "→".toList),
   ("\\leftarrow".toList, "←".toList)]

/-- Scan to the first close brace, returning the text before it and the rest
after it; this realizes a bracketed group of the frac pattern, whose character
class excludes the close brace. -/
def braceContent : List Char → Option (List Char × List Char)
  | [] => none
  | c :: cs =>
    if c = '\x7d' then some ([], cs)
    else (braceContent cs).map (fun p => (c :: p.1, p.2))

/-- Matcher at the current position for the frac rewrite of line 242: literal
backslash f r a c, then two brace groups each with at least one character not
a close brace; the payload is the first group, a slash, and the second. -/
def tryFrac (s : List Char) : Option (List Char × List Char) :=
  match s with
  | '\\' :: 'f' :: 'r' :: 'a' :: 'c' :: '\x7b' :: rest =>
    match braceContent rest with
    | some (a, r1) =>
      if a.isEmpty then none
      else
        match r1 with
        | '\x7b' :: r2 =>
          match braceContent r2 with
          | some (b, r3) => if b.isEmpty then none else some (a ++ '/' :: b, r3)
          | none => none
        | _ => none
    | none => none
  | _ => none

/-- Drop a run of space characters, as the space-star parts of the patterns of
lines 252 to 257 do. -/
def skipSpaces (s : List Char) : List Char := s.dropWhile (fun c => c = ' ')

/-- Matcher for the braced superscript pattern of line 252: caret, spaces,
open brace, spaces, a nonempty digit run, spaces, close brace; the payload is
the digit run mapped through supChar. -/
def trySupBr (s : List Char) : Option (List Char × List Char) :=
  match s with
  | '^' :: rest =>
    match skipSpaces rest with
    | '\x7b' :: r2 =>
      let r3 := skipSpaces r2
      let ds := r3.takeWhile Char.isDigit
      if ds.isEmpty then none
      else
        match skipSpaces (r3.dropWhile Char.isDigit) with
        | '\x7d' :: r6 => some (ds.map supChar, r6)
        | _ => none
    | _ => none
  | _ => none

/-- Matcher for the braced subscript pattern of line 253. -/
def trySubBr (s : List Char) : Option (List Char × List Char) :=
  match s with
  | '_' :: rest =>
    match skipSpaces rest with
    | '\x7b' :: r2 =>
      let r3 := skipSpaces r2
      let ds := r3.takeWhile Char.isDigit
      if ds.isEmpty then none
      else
        match skipSpaces (r3.dropWhile Char.isDigit) with
        | '\x7d' :: r6 => some (ds.map subChar, r6)
        | _ => none
    | _ => none
  | _ => none

/-- Matcher for the unbraced superscript pattern of line 256: caret, spaces,
then a nonempty digit run, the whole run being captured greedily. -/
def trySupPlain (s : List Char) : Option (List Char × List Char) :=
  match s with
  | '^' :: rest =>
    let r1 := skipSpaces rest
    let ds := r1.takeWhile Char.isDigit
    if ds.isEmpty then none else some (ds.map supChar, r1.dropWhile Char.isDigit)
  | _ => none

/-- Matcher for the unbraced subscript pattern of line 257. -/
def trySubPlain (s : List Char) : Option (List Char × List Char) :=
  match s with
  | '_' :: rest =>
    let r1 := skipSpaces rest
    let ds := r1.takeWhile Char.isDigit
    if ds.isEmpty then none else some (ds.map subChar, r1.dropWhile Char.isDigit)
  | _ => none

/-- One full re.sub pass driven by a position matcher: at each position try
the matcher; on a match emit repl applied to the payload and resume after the
match, otherwise keep one character and move on. Callers pass the subject
length as fuel; every matcher used here consumes at least two characters. -/
def subPass (t : List Char → Option (List Char × List Char))
    (repl : List Char → List Char) : Nat → List Char → List Char
  | 0, s => s
  | _ + 1, [] => []
  | fuel + 1, c :: cs =>
    match t (c :: cs) with
    | some (g, rest) => repl g ++ subPass t repl fuel rest
    | none => c :: subPass t repl fuel cs

/-- Run one substitution pass with sufficient fuel. -/
def runSub (t : List Char → Option (List Char × List Char))
    (repl : List Char → List Char) (s : List Char) : List Char :=
  subPass t repl s.length s

/-- unicode_replace of lines 208 to 262: strip the brace-and-space edge set,
apply the greek and symbol tables, rewrite fractions, braced superscripts and
subscripts, unbraced digit runs after caret and underscore, and finally the
three literal power replacements of line 260. -/
def unicode_replace (latex : List Char) : List Char :=
  let r0 := stripSet latex
  let r1 := applyTable greekTable r0
  let r2 := applyTable symbolTable r1
  let r3 := runSub tryFrac id r2
  let r4 := runSub trySupBr id r3
  let r5 := runSub trySubBr id r4
  let r6 := runSub trySupPlain id r5
  let r7 := runSub trySubPlain id r6
  let r8 := replaceAll "^2".toList "²".toList r7.length r7
  let r9 := replaceAll "^3".toList "³".toList r8.length r8
  replaceAll "^-1".toList "⁻¹".toList r9.length r9

/-- Optional external capabilities of the textual cascade. The outer Option
models library availability (PYLATEXENC_SUPPORT, SYMPY_SUPPORT); a none result
of the inner function models a raised exception, which the source swallows
with a bare except clause. The sympy field is the composite of parse_latex and
sympy.pretty with the newline replacement of line 279. -/
structure Caps where
  pylatexenc : Option (List Char → Option (List Char))
  sympy : Option (List Char → Option (List Char))

/-- No optional backend present. -/
def noCaps : Caps := ⟨none, none⟩

/-- Both backends present but every call raises. -/
def throwCaps : Caps := ⟨some (fun _ => none), some (fun _ => none)⟩

/-- replace_math of lines 264 to 284. The float comparison of line 280, len
sympy greater than len converted times 1.2, is modeled by the exact rational
comparison five times the one against six times the other; for subject
lengths below ten to the fourteenth the double rounding of the literal 1.2
never changes the verdict, so the model is faithful on realistic inputs. -/
def replace_math (caps : Caps) (group1 : List Char) : List Char :=
  let latex := pyStrip group1
  let viaTables :=
    let converted := unicode_replace latex
    match caps.sympy with
    | some f =>
      match f latex with
      | some sr => if 5 * sr.length > 6 * converted.length then sr else converted
      | none => converted
    | none => converted
  match caps.pylatexenc with
  | some l2t =>
    match l2t latex with
    | some r => r
    | none => viaTables
  | none => viaTables

/-- Scan for the first occurrence of the two-character closing sequence a b;
return the characters before it and the rest after it. This realizes a lazy
dot-plus followed by a literal two-character closer. -/
def close2 (a b : Char) : List Char → Option (List Char × List Char)
  | [] => none
  | x :: xs =>
    if x = a ∧ xs.head? = some b then some ([], xs.tail)
    else (close2 a b xs).map (fun p => (x :: p.1, p.2))

/-- Matcher at the current position for the first render_latex pattern of
line 287: two dollars, a lazy nonempty interior that may contain anything,
then the first later two-dollar pair. -/
def tryP1L : List Char → Option (List Char × List Char)
  | '$' :: '$' :: c :: cs => (close2 '$' '$' cs).map (fun p => (c :: p.1, p.2))
  | _ => none

/-- Interior scan for the second render_latex pattern of line 288: characters
other than dollar and newline up to a closing dollar. -/
def dIntL : List Char → Option (List Char × List Char)
  | [] => none
  | c :: cs =>
    if c = '$' then some ([], cs)
    else if c = '\n' then none
    else (dIntL cs).map (fun p => (c :: p.1, p.2))

/-- Matcher for the second render_latex pattern of line 288: one dollar, a
nonempty interior free of dollar and newline, one dollar. -/
def tryP2L : List Char → Option (List Char × List Char)
  | '$' :: rest =>
    match dIntL rest with
    | some (i, r) => if i.isEmpty then none else some (i, r)
    | none => none
  | _ => none

/-- Matcher for the backslash bracket pattern of lines 289 and 327: literal
backslash open bracket, lazy nonempty interior, then the first literal
backslash close bracket. -/
def brTry : List Char → Option (List Char × List Char)
  | '\\' :: '[' :: c :: cs => (close2 '\\' ']' cs).map (fun p => (c :: p.1, p.2))
  | _ => none

/-- Matcher for the backslash paren pattern of lines 290 and 328. -/
def prTry : List Char → Option (List Char × List Char)
  | '\\' :: '(' :: c :: cs => (close2 '\\' ')' cs).map (fun p => (c :: p.1, p.2))
  | _ => none

/-- render_latex of lines 286 to 294: four sequential full substitution
passes over the text, in the order double dollar, single dollar, backslash
bracket, backslash paren, each replacing every match by replace_math of its
captured group. -/
def render_latex (caps : Caps) (text : List Char) : List Char :=
  let t1 := runSub tryP1L (replace_math caps) text
  let t2 := runSub tryP2L (replace_math caps) t1
  let t3 := runSub brTry (replace_math caps) t2
  runSub prTry (replace_math caps) t3

/-- render_math_to_image of lines 296 to 311: the whole body sits inside a
try block, so the matplotlib backend is an oracle and a raised exception
turns into the returned None value; no exception escapes. -/
def render_math_to_image (mpl : List Char → Bool → Option (List Nat))
    (latex : List Char) (inline : Bool) : Option (List Nat) :=
  mpl latex inline

/-- The fallback print of line 361 when no image bytes were produced: the
fragment between two single dollars, whatever its original delimiters. -/
def imgFallback (latex : List Char) : List Char := '$' :: (latex ++ ['$'])

/-- The four delimiter rules of the render_response pattern list of lines
324 to 329, in priority order: double dollar block, single dollar inline,
backslash bracket block, backslash paren inline. -/
inductive MDelim
  | dd
  | d1
  | br
  | pr
deriving DecidableEq

/-- Opening marker of a rule. -/
def MDelim.openOf : MDelim → List Char
  | .dd => ['$', '$']
  | .d1 => ['$']
  | .br => ['\\', '[']
  | .pr => ['\\', '(']

/-- Closing marker of a rule. -/
def MDelim.closeOf : MDelim → List Char
  | .dd => ['$', '$']
  | .d1 => ['$']
  | .br => ['\\', ']']
  | .pr => ['\\', ')']

/-- The is_inline flag attached to each pattern in lines 325 to 328. -/
def MDelim.isInline : MDelim → Bool
  | .dd => false
  | .d1 => true
  | .br => false
  | .pr => true

/-- Last character of the closing marker; after a match the scan resumes just
past it, so it is the character a lookbehind sees next. -/
def MDelim.lastClose : MDelim → Char
  | .dd => '$'
  | .d1 => '$'
  | .br => ']'
  | .pr => ')'

/-- Closing scan for the double dollar pattern of line 325: interior
characters are anything but a dollar, and the closing two dollars must not be
preceded by a backslash. The prev argument is the character just before the
current suffix. -/
def ddCloseR : Char → List Char → Option (List Char × List Char)
  | _, [] => none
  | prev, x :: xs =>
    if x = '$' then
      if xs.head? = some '$' ∧ prev ≠ '\\' then some ([], xs.tail) else none
    else (ddCloseR x xs).map (fun p => (x :: p.1, p.2))

/-- Closing scan for the single dollar pattern of line 326: interior
characters are anything but dollar, newline and carriage return, and the
closing dollar must not be preceded by a backslash. -/
def dCloseR : Char → List Char → Option (List Char × List Char)
  | _, [] => none
  | prev, x :: xs =>
    if x = '$' then
      if prev = '\\' then none else some ([], xs)
    else if x = '\n' ∨ x = '\r' then none
    else (dCloseR x xs).map (fun p => (x :: p.1, p.2))

/-- Matcher at the current position for the double dollar pattern of line
325, with its negative lookbehind on the opening marker. -/
def tryDDr (prev : Option Char) (s : List Char) : Option (List Char × List Char) :=
  match s with
  | '$' :: '$' :: rest => if prev = some '\\' then none else ddCloseR '$' rest
  | _ => none

/-- Matcher at the current position for the single dollar pattern of line
326, with its negative lookbehind on the opening marker. The interior may be
empty. -/
def tryDr (prev : Option Char) (s : List Char) : Option (List Char × List Char) :=
  match s with
  | '$' :: rest => if prev = some '\\' then none else dCloseR '$' rest
  | _ => none

/-- Try the four rules at the current position in priority order, as the
search loop of lines 335 to 340 resolves a tie at the same start offset in
favor of the earlier pattern in the list. -/
def matchHereR (prev : Option Char) (s : List Char) :
    Option (MDelim × List Char × List Char) :=
  match tryDDr prev s with
  | some (i, r) => some (.dd, i, r)
  | none =>
    match tryDr prev s with
    | some (i, r) => some (.d1, i, r)
    | none =>
      match brTry s with
      | some (i, r) => some (.br, i, r)
      | none => (prTry s).map (fun p => (.pr, p.1, p.2))

/-- Find the earliest position at which some rule matches: returns the plain
text before the match, the rule, the captured interior and the rest. This is
the min-start search of lines 331 to 340. -/
def scanR (prev : Option Char) : List Char → Option (List Char × MDelim × List Char × List Char)
  | [] => none
  | c :: cs =>
    match matchHereR prev (c :: cs) with
    | some (dl, i, r) => some ([], dl, i, r)
    | none => (scanR (some c) cs).map (fun q => (c :: q.1, q.2))

/-- A segment of the image path: verbatim plain text, or a math span with its
rule and the raw captured interior. The conversion site applies strip to the
interior (line 354); trimSeg and segmentOut below record that step. -/
inductive MSeg
  | plain (t : List Char)
  | math (d : MDelim) (raw : List Char)
deriving DecidableEq

/-- The segmentation loop of lines 331 to 362, restricted to the spans it
produces: plain slices between matches and math spans for matches, scanning
from the end of each match with the preceding character tracked for the
lookbehinds. Fuel is the subject length plus one; every match consumes at
least two characters, so the fuel never runs out. -/
def segAux : Nat → Option Char → List Char → List MSeg
  | 0, _, s => if s.isEmpty then [] else [.plain s]
  | fuel + 1, prev, s =>
    match scanR prev s with
    | none => if s.isEmpty then [] else [.plain s]
    | some (pre, dl, i, r) =>
      (if pre.isEmpty then [] else [.plain pre]) ++
        .math dl i :: segAux fuel (some dl.lastClose) r

/-- Segmentation of a whole text, starting with no preceding character. -/
def segmentText (s : List Char) : List MSeg := segAux (s.length + 1) none s

/-- The per-span strip of line 354 applied to a produced span. -/
def trimSeg : MSeg → MSeg
  | .plain t => .plain t
  | .math dl raw => .math dl (pyStrip raw)

/-- The spans exactly as the loop hands them on: math interiors stripped. -/
def segmentOut (s : List Char) : List MSeg := (segmentText s).map trimSeg

/-- Reconstruction of a span list: plain segments verbatim, math spans with
their original delimiters re-inserted around the stored interior. -/
def reconRaw : List MSeg → List Char
  | [] => []
  | .plain t :: rest => t ++ reconRaw rest
  | .math dl raw :: rest => dl.openOf ++ raw ++ dl.closeOf ++ reconRaw rest

/-- Concatenation of the plain segments only: the non-math characters of the
input as the segmentation sees them. -/
def plainText : List MSeg → List Char
  | [] => []
  | .plain t :: rest => t ++ plainText rest
  | .math _ _ :: rest => plainText rest

/-- The character just before position j of s, given the character prev just
before s itself; this is what a lookbehind at offset j inspects. -/
def prevAt (prev : Option Char) (s : List Char) : Nat → Option Char
  | 0 => prev
  | j + 1 => (s.drop j).head?

/-- Whether pat occurs as a contiguous run inside s. -/
def containsRun (pat : List Char) : List Char → Bool
  | [] => List.isPrefixOf pat []
  | c :: cs => List.isPrefixOf pat (c :: cs) || containsRun pat cs

/-- Whether the first list is a subsequence of the second, in order. -/
def subseqOf : List Char → List Char → Bool
  | [], _ => true
  | _ :: _, [] => false
  | a :: as, b :: bs => if a = b then subseqOf as bs else subseqOf (a :: as) bs

/-- First character is a digit. -/
def headDigit : List Char → Bool
  | [] => false
  | c :: _ => c.isDigit

theorem close2_eq (a b : Char) :
    ∀ s i r, close2 a b s = some (i, r) → s = i ++ a :: b :: r := by
  intro s
  induction s with
  | nil => intro i r h; simp [close2] at h
  | cons x xs ih =>
    intro i r h
    simp only [close2] at h
    by_cases hc : x = a ∧ xs.head? = some b
    · rw [if_pos hc] at h
      obtain ⟨hx, hh⟩ := hc
      cases xs with
      | nil => simp at hh
      | cons y ys =>
        simp only [List.head?] at hh
        injection hh with hy
        injection h with h2
        injection h2 with h3 h4
        subst hx hy h3 h4
        simp
    · rw [if_neg hc] at h
      cases hcl : close2 a b xs with
      | none => rw [hcl] at h; simp at h
      | some p =>
        rw [hcl] at h
        obtain ⟨i0, r0⟩ := p
        simp only [Option.map_some'] at h
        injection h with h2
        injection h2 with h3 h4
        subst h3 h4
        have := ih i0 r0 hcl
        rw [this]
        simp

theorem ddCloseR_eq :
    ∀ s prev i r, ddCloseR prev s = some (i, r) → s = i ++ '$' :: '$' :: r := by
  intro s
  induction s with
  | nil => intro prev i r h; simp [ddCloseR] at h
  | cons x xs ih =>
    intro prev i r h
    simp only [ddCloseR] at h
    by_cases hx : x = '$'
    · rw [if_pos hx] at h
      by_cases hcl : xs.head? = some '$' ∧ prev ≠ '\\'
      · rw [if_pos hcl] at h
        obtain ⟨hh, _⟩ := hcl
        cases xs with
        | nil => simp at hh
        | cons y ys =>
          simp only [List.head?] at hh
          injection hh with hy
          injection h with h2
          injection h2 with h3 h4
          subst hx hy h3 h4
          simp
      · rw [if_neg hcl] at h; simp at h
    · rw [if_neg hx] at h
      cases hcl : ddCloseR x xs with
      | none => rw [hcl] at h; simp at h
      | some p =>
        rw [hcl] at h
        obtain ⟨i0, r0⟩ := p
        simp only [Option.map_some'] at h
        injection h with h2
        injection h2 with h3 h4
        subst h3 h4
        have := ih x i0 r0 hcl
        rw [this]
        simp

theorem dCloseR_eq :
    ∀ s prev i r, dCloseR prev s = some (i, r) → s = i ++ '$' :: r := by
  intro s
  induction s with
  | nil => intro prev i r h; simp [dCloseR] at h
  | cons x xs ih =>
    intro prev i r h
    simp only [dCloseR] at h
    by_cases hx : x = '$'
    · rw [if_pos hx] at h
      by_cases hp : prev = '\\'
      · rw [if_pos hp] at h; simp at h
      · rw [if_neg hp] at h
        injection h with h2
        injection h2 with h3 h4
        subst hx h3 h4
        simp
    · rw [if_neg hx] at h
      by_cases hn : x = '\n' ∨ x = '\r'
      · rw [if_pos hn] at h; simp at h
      · rw [if_neg hn] at h
        cases hcl : dCloseR x xs with
        | none => rw [hcl] at h; simp at h
        | some p =>
          rw [hcl] at h
          obtain ⟨i0, r0⟩ := p
          simp only [Option.map_some'] at h
          injection h with h2
          injection h2 with h3 h4
          subst h3 h4
          have := ih x i0 r0 hcl
          rw [this]
          simp

theorem tryDDr_eq (prev : Option Char) (s : List Char) (i r : List Char)
    (h : tryDDr prev s = some (i, r)) :
    s = '$' :: '$' :: (i ++ '$' :: '$' :: r) := by
  unfold tryDDr at h
  split at h
  · split at h
    · simp at h
    · rename_i rest _
      rw [ddCloseR_eq rest '$' i r h]
  · simp at h

theorem tryDr_eq (prev : Option Char) (s : List Char) (i r : List Char)
    (h : tryDr prev s = some (i, r)) :
    s = '$' :: (i ++ '$' :: r) := by
  unfold tryDr at h
  split at h
  · split at h
    · simp at h
    · rename_i rest _
      rw [dCloseR_eq rest '$' i r h]
  · simp at h

theorem brTry_eq (s : List Char) (i r : List Char)
    (h : brTry s = some (i, r)) :
    s = '\\' :: '[' :: (i ++ '\\' :: ']' :: r) := by
  unfold brTry at h
  split at h
  · rename_i c cs
    cases hcl : close2 '\\' ']' cs with
    | none => rw [hcl] at h; simp at h
    | some p =>
      rw [hcl] at h
      obtain ⟨i0, r0⟩ := p
      simp only [Option.map_some'] at h
      injection h with h2
      injection h2 with h3 h4
      subst h3 h4
      rw [close2_eq '\\' ']' cs i0 r0 hcl]
      simp
  · simp at h

theorem prTry_eq (s : List Char) (i r : List Char)
    (h : prTry s = some (i, r)) :
    s = '\\' :: '(' :: (i ++ '\\' :: ')' :: r) := by
  unfold prTry at h
  split at h
  · rename_i c cs
    cases hcl : close2 '\\' ')' cs with
    | none => rw [hcl] at h; simp at h
    | some p =>
      rw [hcl] at h
      obtain ⟨i0, r0⟩ := p
      simp only [Option.map_some'] at h
      injection h with h2
      injection h2 with h3 h4
      subst h3 h4
      rw [close2_eq '\\' ')' cs i0 r0 hcl]
      simp
  · simp at h

theorem matchHereR_eq (prev : Option Char) (s : List Char) (dl : MDelim)
    (i r : List Char) (h : matchHereR prev s = some (dl, i, r)) :
    s = dl.openOf ++ i ++ dl.closeOf ++ r := by
  unfold matchHereR at h
  cases h1 : tryDDr prev s with
  | some p =>
    rw [h1] at h
    obtain ⟨i0, r0⟩ := p
    injection h with h2
    injection h2 with h3 h4
    injection h4 with h5 h6
    subst h3 h5 h6
    rw [tryDDr_eq prev s i0 r0 h1]
    simp [MDelim.openOf, MDelim.closeOf]
  | none =>
    rw [h1] at h
    cases h2 : tryDr prev s with
    | some p =>
      rw [h2] at h
      obtain ⟨i0, r0⟩ := p
      injection h with h3
      injection h3 with h4 h5
      injection h5 with h6 h7
      subst h4 h6 h7
      rw [tryDr_eq prev s i0 r0 h2]
      simp [MDelim.openOf, MDelim.closeOf]
    | none =>
      rw [h2] at h
      cases h3 : brTry s with
      | some p =>
        rw [h3] at h
        obtain ⟨i0, r0⟩ := p
        injection h with h4
        injection h4 with h5 h6
        injection h6 with h7 h8
        subst h5 h7 h8
        rw [brTry_eq s i0 r0 h3]
        simp [MDelim.openOf, MDelim.closeOf]
      | none =>
        rw [h3] at h
        cases h4 : prTry s with
        | none => rw [h4] at h; simp at h
        | some p =>
          rw [h4] at h
          obtain ⟨i0, r0⟩ := p
          simp only [Option.map_some'] at h
          injection h with h5
          injection h5 with h6 h7
          injection h7 with h8 h9
          subst h6 h8 h9
          rw [prTry_eq s i0 r0 h4]
          simp [MDelim.openOf, MDelim.closeOf]

theorem scanR_eq :
    ∀ s prev pre dl i r, scanR prev s = some (pre, dl, i, r) →
      s = pre ++ dl.openOf ++ i ++ dl.closeOf ++ r := by
  intro s
  induction s with
  | nil => intro prev pre dl i r h; simp [scanR] at h
  | cons c cs ih =>
    intro prev pre dl i r h
    simp only [scanR] at h
    cases hm : matchHereR prev (c :: cs) with
    | some v =>
      rw [hm] at h
      obtain ⟨dl0, i0, r0⟩ := v
      injection h with h2
      injection h2 with h3 h4
      injection h4 with h5 h6
      injection h6 with h7 h8
      subst h3 h5 h7 h8
      have := matchHereR_eq prev (c :: cs) dl0 i0 r0 hm
      simpa using this
    | none =>
      rw [hm] at h
      cases hsc : scanR (some c) cs with
      | none => rw [hsc] at h; simp at h
      | some q =>
        rw [hsc] at h
        obtain ⟨pre0, dl0, i0, r0⟩ := q
        simp only [Option.map_some'] at h
        injection h with h2
        injection h2 with h3 h4
        injection h4 with h5 h6
        injection h6 with h7 h8
        subst h3 h5 h7 h8
        have := ih (some c) pre0 dl0 i0 r0 hsc
        rw [this]
        simp

theorem scanR_rest_len (prev : Option Char) (s : List Char) (pre : List Char)
    (dl : MDelim) (i r : List Char) (h : scanR prev s = some (pre, dl, i, r)) :
    r.length < s.length := by
  have hd := scanR_eq s prev pre dl i r h
  rw [hd]
  cases dl <;> simp [MDelim.openOf, MDelim.closeOf] <;> omega

theorem reconRaw_append (l1 l2 : List MSeg) :
    reconRaw (l1 ++ l2) = reconRaw l1 ++ reconRaw l2 := by
  induction l1 with
  | nil => simp [reconRaw]
  | cons x xs ih => cases x <;> simp [reconRaw, ih]

theorem segAux_recon :
    ∀ fuel prev s, s.length < fuel → reconRaw (segAux fuel prev s) = s := by
  intro fuel
  induction fuel with
  | zero => intro prev s h; exact absurd h (Nat.not_lt_zero _)
  | succ fuel ih =>
    intro prev s h
    simp only [segAux]
    cases hs : scanR prev s with
    | none =>
      by_cases he : s.isEmpty
      · rw [List.isEmpty_iff] at he
        simp [he, reconRaw]
      · simp [he, reconRaw]
    | some q =>
      obtain ⟨pre, dl, i, r⟩ := q
      have hdec := scanR_eq s prev pre dl i r hs
      have hlen : r.length < s.length := scanR_rest_len prev s pre dl i r hs
      simp only
      rw [reconRaw_append]
      have h1 : reconRaw (if pre.isEmpty then [] else [MSeg.plain pre]) = pre := by
        by_cases hp : pre.isEmpty
        · rw [List.isEmpty_iff] at hp
          simp [hp, reconRaw]
        · simp [hp, reconRaw]
      rw [h1]
      have h2 : reconRaw (MSeg.math dl i :: segAux fuel (some dl.lastClose) r) =
          dl.openOf ++ i ++ dl.closeOf ++ reconRaw (segAux fuel (some dl.lastClose) r) := by
        simp [reconRaw]
      rw [h2, ih (some dl.lastClose) r (by omega), hdec]
      simp

/-- Claim C1 (amended): for every input, concatenating the plain segments
verbatim and each math span with its original delimiters re-inserted around
its raw captured interior equals the original input. The spans the code hands
on carry whitespace-trimmed interiors, so the reconstruction of the produced
segments equals the input only when no math interior has leading or trailing
whitespace; the counterexample theorem records the failure of the claim as
stated, on both the trimming and the textual-mode preservation clause. -/
theorem c1_amended_reconstruction (s : List Char) : reconRaw (segmentText s) = s :=
  segAux_recon (s.length + 1) none s (Nat.lt_succ_self _)

/-- Claim C1, counterexample: the produced spans of the input with interior
whitespace reconstruct to a different string, and for the second clause a
crafted input shows non-math characters of the image-path segmentation that
are not preserved in order by the textual output, because a later pass
re-matches text produced by an earlier pass. -/
theorem c1_counterexample :
    reconRaw (segmentOut "$$ x $$".toList) ≠ "$$ x $$".toList
    ∧ render_latex noCaps "$$\\(a$$ b \\)c".toList = "a bc".toList
    ∧ plainText (segmentText "$$\\(a$$ b \\)c".toList) = " b \\)c".toList
    ∧ subseqOf (plainText (segmentText "$$\\(a$$ b \\)c".toList))
        (render_latex noCaps "$$\\(a$$ b \\)c".toList) = false := by
  refine ⟨by decide, by decide, by decide, by decide⟩

/-- Claim C2: for every input string, segmentation and conversion in both
modes return a defined result and never raise; no error kind propagates to
the caller as a failure signal. In the embedding, totality is the fact that
every function here is a total Lean function; the substance proved is that a
backend that raises on every call is indistinguishable from an absent one,
that a failing image backend yields the None value rather than a failure
signal, and that segmentation produces a defined span list on every input,
the empty one included. -/
theorem c2_total_no_failure :
    (∀ g, replace_math throwCaps g = replace_math noCaps g)
    ∧ (∀ t, render_latex throwCaps t = render_latex noCaps t)
    ∧ (∀ l b f, (∀ x y, f x y = none) → render_math_to_image f l b = none)
    ∧ segmentText [] = []
    ∧ (∀ t, t ≠ [] → segmentText t ≠ []) := by
  refine ⟨fun g => rfl, ?_, ?_, rfl, ?_⟩
  · intro t
    have h : replace_math throwCaps = replace_math noCaps := funext fun g => rfl
    simp [render_latex, h]
  · intro l b f hf
    exact hf l b
  · intro t ht
    cases t with
    | nil => exact absurd rfl ht
    | cons c cs =>
      unfold segmentText
      simp only [segAux]
      cases hs : scanR none (c :: cs) with
      | none => simp
      | some q =>
        obtain ⟨pre, dl, i, r⟩ := q
        simp

theorem c2_total_no_failure_witness :
    segmentText ('a' :: []) ≠ []
    ∧ render_math_to_image (fun _ _ => none) "x".toList true = none := by
  constructor
  · exact c2_total_no_failure.2.2.2.2 ('a' :: []) (by decide)
  · exact c2_total_no_failure.2.2.1 "x".toList true (fun _ _ => none) (fun _ _ => rfl)

theorem prevAt_cons (prev : Option Char) (c : Char) (cs : List Char) (j : Nat) :
    prevAt prev (c :: cs) (j + 1) = prevAt (some c) cs j := by
  cases j with
  | zero => simp [prevAt]
  | succ j => simp [prevAt]

theorem scanR_spec :
    ∀ s prev pre dl i r, scanR prev s = some (pre, dl, i, r) →
      matchHereR (prevAt prev s pre.length) (s.drop pre.length) = some (dl, i, r)
      ∧ ∀ j, j < pre.length → matchHereR (prevAt prev s j) (s.drop j) = none := by
  intro s
  induction s with
  | nil => intro prev pre dl i r h; simp [scanR] at h
  | cons c cs ih =>
    intro prev pre dl i r h
    simp only [scanR] at h
    cases hm : matchHereR prev (c :: cs) with
    | some v =>
      rw [hm] at h
      obtain ⟨dl0, i0, r0⟩ := v
      injection h with h2
      injection h2 with h3 h4
      injection h4 with h5 h6
      injection h6 with h7 h8
      subst h3 h5 h7 h8
      constructor
      · simpa [prevAt] using hm
      · intro j hj
        exact absurd hj (Nat.not_lt_zero _)
    | none =>
      rw [hm] at h
      cases hsc : scanR (some c) cs with
      | none => rw [hsc] at h; simp at h
      | some q =>
        rw [hsc] at h
        obtain ⟨pre0, dl0, i0, r0⟩ := q
        simp only [Option.map_some'] at h
        injection h with h2
        injection h2 with h3 h4
        injection h4 with h5 h6
        injection h6 with h7 h8
        subst h3 h5 h7 h8
        have hih := ih (some c) pre0 dl0 i0 r0 hsc
        constructor
        · rw [List.length_cons, prevAt_cons, List.drop_succ_cons]
          exact hih.1
        · intro j hj
          cases j with
          | zero => simpa [prevAt] using hm
          | succ j =>
            rw [prevAt_cons, List.drop_succ_cons]
            exact hih.2 j (by simpa using hj)

/-- Claim C3: the input of two dollars, x caret 2, two dollars segments as
exactly one block math span with content x caret 2, not two adjacent inline
spans, in the image path and effectively in the textual path; in general the
rule matching at the earliest position wins and a tie at the same start
offset resolves to the earlier pattern in the priority list, double dollar
before single dollar. -/
theorem c3_precedence :
    segmentText "$$x^2$$".toList = [MSeg.math MDelim.dd "x^2".toList]
    ∧ MDelim.isInline MDelim.dd = false
    ∧ render_latex noCaps "$$x^2$$".toList = ['x', Char.ofNat 0x2072]
    ∧ (∀ prev s i r, tryDDr prev s = some (i, r) →
        matchHereR prev s = some (MDelim.dd, i, r))
    ∧ (∀ prev s pre dl i r, scanR prev s = some (pre, dl, i, r) →
        matchHereR (prevAt prev s pre.length) (s.drop pre.length) = some (dl, i, r)
        ∧ ∀ j, j < pre.length → matchHereR (prevAt prev s j) (s.drop j) = none) := by
  refine ⟨by decide, rfl, by decide, ?_, ?_⟩
  · intro prev s i r h
    unfold matchHereR
    rw [h]
  · exact fun prev s pre dl i r h => scanR_spec s prev pre dl i r h

theorem c3_precedence_witness :
    matchHereR none "$$x$$".toList = some (MDelim.dd, "x".toList, [])
    ∧ matchHereR (prevAt none "a$x$".toList 1) ("a$x$".toList.drop 1) =
        some (MDelim.d1, "x".toList, []) := by
  constructor
  · exact c3_precedence.2.2.2.1 none "$$x$$".toList "x".toList [] (by decide)
  · exact (c3_precedence.2.2.2.2 none "a$x$".toList ['a'] MDelim.d1 "x".toList []
      (by decide)).1

/-- Claim C4: in textual mode, when the sympy engine is available and parses
the fragment, its pretty-printed result is returned exactly when its length
strictly exceeds 1.2 times the length of the table plus regex result, and
otherwise, equality included, the table result is kept. The float factor 1.2
is modeled by the exact comparison of five times one length against six
times the other. -/
theorem c4_sympy_ratio (g : List Char) (f : List Char → Option (List Char)) (sr : List Char)
    (h : f (pyStrip g) = some sr) :
    replace_math ⟨none, some f⟩ g =
      if 5 * sr.length > 6 * (unicode_replace (pyStrip g)).length then sr
      else unicode_replace (pyStrip g) := by
  simp [replace_math, h]

theorem c4_sympy_ratio_witness :
    replace_math ⟨none, some (fun _ => some "aaaaaaa".toList)⟩ "x".toList = "aaaaaaa".toList
    ∧ replace_math ⟨none, some (fun _ => some "bbbbbb".toList)⟩ "abcde".toList =
        "abcde".toList := by
  constructor
  · rw [c4_sympy_ratio "x".toList (fun _ => some "aaaaaaa".toList) "aaaaaaa".toList rfl]
    decide
  · rw [c4_sympy_ratio "abcde".toList (fun _ => some "bbbbbb".toList) "bbbbbb".toList rfl]
    decide

/-- Claim C5, counterexample: with no backend available and a fragment the
table cascade leaves unchanged, textual conversion returns the bare fragment,
not the fragment wrapped in its original delimiters; and in the image path
the fallback print wraps every fragment in single dollars, so a block span
does not get its original double dollars back either. -/
theorem c5_counterexample :
    render_latex noCaps "$\\foo$".toList = "\\foo".toList
    ∧ render_latex noCaps "$\\foo$".toList ≠ "$\\foo$".toList
    ∧ segmentOut "$$x$$".toList = [MSeg.math MDelim.dd "x".toList]
    ∧ imgFallback "x".toList ≠ "$$x$$".toList := by
  refine ⟨by decide, by decide, by decide, by decide⟩

/-- Claim C5 (amended): when every tier fails or produces nothing, textual
conversion returns the stripped fragment itself with no delimiters re-added;
the image path on rendering failure prints the fragment between single
dollars whatever its original delimiter type. -/
theorem c5_amended_fallback (g : List Char)
    (h : unicode_replace (pyStrip g) = pyStrip g) :
    replace_math noCaps g = pyStrip g
    ∧ imgFallback "x".toList = "$x$".toList := by
  constructor
  · simp [replace_math, noCaps, h]
  · rfl

theorem c5_amended_fallback_witness :
    replace_math noCaps "\\foo".toList = pyStrip "\\foo".toList :=
  (c5_amended_fallback "\\foo".toList (by decide)).1

/-- Claim C6: an opening delimiter with no matching closer before end of text
is treated as plain text and does not consume the remainder; the scan resumes
one character past it. Concretely the price example segments as one plain
span and passes through the textual path unchanged; in general, whenever no
rule matches at the current position the scan moves one character. -/
theorem c6_unterminated :
    segmentText "price is $5 and more text".toList =
      [MSeg.plain "price is $5 and more text".toList]
    ∧ render_latex noCaps "price is $5 and more text".toList =
        "price is $5 and more text".toList
    ∧ (∀ prev c cs, matchHereR prev (c :: cs) = none →
        scanR prev (c :: cs) = (scanR (some c) cs).map (fun q => (c :: q.1, q.2))) := by
  refine ⟨by decide, by decide, ?_⟩
  intro prev c cs h
  simp [scanR, h]

theorem c6_unterminated_witness :
    scanR none ('$' :: "5x".toList) =
      (scanR (some '$') "5x".toList).map (fun q => ('$' :: q.1, q.2)) :=
  c6_unterminated.2.2 none '$' "5x".toList (by decide)

/-- Claim C7, counterexample: in the textual substitution path the patterns
carry no lookbehind, so a dollar preceded by a backslash is consumed as an
opening marker: the escaped input is rewritten instead of passing through. -/
theorem c7_counterexample :
    render_latex noCaps "\\$a$".toList = "\\a".toList
    ∧ render_latex noCaps "\\$a$".toList ≠ "\\$a$".toList := by
  refine ⟨by decide, by decide⟩

/-- Claim C7 (amended): in the image segmentation path a dollar immediately
preceded by a backslash is never an opening marker, for the double dollar and
the single dollar rule alike; the textual substitution path performs no
escape handling at all. -/
theorem c7_amended_escape :
    (∀ s, tryDDr (some '\\') s = none)
    ∧ (∀ s, tryDr (some '\\') s = none)
    ∧ segmentText "\\$a$".toList = [MSeg.plain "\\$a$".toList]
    ∧ segmentText "$a$".toList = [MSeg.math MDelim.d1 "a".toList] := by
  refine ⟨?_, ?_, by decide, by decide⟩
  · intro s
    unfold tryDDr
    split
    · simp
    · rfl
  · intro s
    unfold tryDr
    split
    · simp
    · rfl

/-- Claim C8, counterexample: the textual substitution path requires a
nonempty interior in both dollar patterns, so the four-dollar input is not
matched at all and passes through unchanged rather than being converted to
the empty string. -/
theorem c8_counterexample :
    render_latex noCaps "$$$$".toList = "$$$$".toList
    ∧ render_latex noCaps "$$$$".toList ≠ [] := by
  refine ⟨by decide, by decide⟩

/-- Claim C8 (amended): in the image segmentation path the four-dollar input
yields one block math span with empty content, and the textual converter on
the empty fragment yields the empty string; the textual substitution path
leaves the input unchanged because its interiors must be nonempty. -/
theorem c8_amended_empty :
    segmentText "$$$$".toList = [MSeg.math MDelim.dd []]
    ∧ MDelim.isInline MDelim.dd = false
    ∧ replace_math noCaps [] = []
    ∧ render_latex noCaps "$$$$".toList = "$$$$".toList := by
  refine ⟨by decide, rfl, by decide, by decide⟩

theorem digit_ne_space (c : Char) (h : c.isDigit = true) : ¬ c = ' ' := by
  intro he
  subst he
  exact absurd h (by decide)

theorem takeWhile_digit_append (ds rest : List Char) (h1 : ds.all Char.isDigit = true)
    (h2 : headDigit rest = false) :
    (ds ++ rest).takeWhile Char.isDigit = ds
    ∧ (ds ++ rest).dropWhile Char.isDigit = rest := by
  induction ds with
  | nil =>
    cases rest with
    | nil => simp
    | cons c cs =>
      simp only [headDigit] at h2
      simp [List.takeWhile_cons, List.dropWhile_cons, h2]
  | cons d ds ih =>
    simp only [List.all_cons, Bool.and_eq_true] at h1
    have hr := ih h1.2
    simp [List.takeWhile_cons, List.dropWhile_cons, h1.1, hr.1, hr.2]

theorem skipSpaces_cons_ne (c : Char) (cs : List Char) (h : ¬ c = ' ') :
    skipSpaces (c :: cs) = c :: cs := by
  simp [skipSpaces, List.dropWhile_cons, h]

theorem skipSpaces_replicate (k : Nat) (t : List Char) :
    skipSpaces (List.replicate k ' ' ++ t) = skipSpaces t := by
  induction k with
  | zero => simp
  | succ k ih =>
    simp [skipSpaces, List.replicate_succ, List.dropWhile_cons]

/-- Claim C9, counterexample: conversion of the bare fragment x caret brace
one zero brace does not contain x followed by the code points 0x2071 and
0x2070, because the initial strip of line 210 removes the trailing close
brace before the braced-exponent pattern can see it; the result keeps the
caret and the open brace. -/
theorem c9_counterexample :
    replace_math noCaps "x^\x7b10\x7d".toList = "x^\x7b10".toList
    ∧ containsRun ['x', Char.ofNat 0x2071, Char.ofNat 0x2070]
        (replace_math noCaps "x^\x7b10\x7d".toList) = false := by
  refine ⟨by decide, by decide⟩

/-- Claim C9 (amended): the braced exponent and subscript rewrite is digit by
digit with code point base 0x2070 respectively 0x2080 plus the digit value,
and it applies whenever the braced group survives the initial strip, that is
whenever the fragment does not end with the close brace; a fragment ending in
the braced exponent loses its trailing brace to the strip of line 210 and
stays unrewritten. -/
theorem c9_amended_braced_digits :
    replace_math noCaps "x^\x7b10\x7dy".toList =
      ['x', Char.ofNat 0x2071, Char.ofNat 0x2070, 'y']
    ∧ replace_math noCaps "x^\x7b10\x7d".toList = "x^\x7b10".toList
    ∧ (∀ d ds rest, (d :: ds).all Char.isDigit = true →
        trySupBr ('^' :: '\x7b' :: ((d :: ds) ++ '\x7d' :: rest)) =
          some ((d :: ds).map supChar, rest))
    ∧ (∀ d ds rest, (d :: ds).all Char.isDigit = true →
        trySubBr ('_' :: '\x7b' :: ((d :: ds) ++ '\x7d' :: rest)) =
          some ((d :: ds).map subChar, rest)) := by
  refine ⟨by decide, by decide, ?_, ?_⟩
  · intro d ds rest h
    have h1 := takeWhile_digit_append (d :: ds) ('\x7d' :: rest) h rfl
    have hd : d.isDigit = true := by
      simp only [List.all_cons, Bool.and_eq_true] at h
      exact h.1
    simp only [trySupBr]
    rw [skipSpaces_cons_ne '\x7b' _ (by decide)]
    simp only [List.cons_append] at h1 ⊢
    rw [skipSpaces_cons_ne d _ (digit_ne_space d hd), h1.1, h1.2,
      skipSpaces_cons_ne '\x7d' _ (by decide)]
    simp
  · intro d ds rest h
    have h1 := takeWhile_digit_append (d :: ds) ('\x7d' :: rest) h rfl
    have hd : d.isDigit = true := by
      simp only [List.all_cons, Bool.and_eq_true] at h
      exact h.1
    simp only [trySubBr]
    rw [skipSpaces_cons_ne '\x7b' _ (by decide)]
    simp only [List.cons_append] at h1 ⊢
    rw [skipSpaces_cons_ne d _ (digit_ne_space d hd), h1.1, h1.2,
      skipSpaces_cons_ne '\x7d' _ (by decide)]
    simp

theorem c9_amended_braced_digits_witness :
    trySupBr ('^' :: '\x7b' :: (['4', '2'] ++ '\x7d' :: "z".toList)) =
      some (['4', '2'].map supChar, "z".toList)
    ∧ trySubBr ('_' :: '\x7b' :: (['7'] ++ '\x7d' :: [])) =
        some (['7'].map subChar, []) := by
  constructor
  · exact c9_amended_braced_digits.2.2.1 '4' ['2'] "z".toList (by decide)
  · exact c9_amended_braced_digits.2.2.2 '7' [] [] (by decide)

/-- Claim C10: in the table cascade an unbraced caret or underscore followed
by a digit run of any length, with optional intervening spaces, is converted
in full, every digit of the run becoming the code point at base 0x2070
respectively 0x2080 plus the digit value; concretely the unbraced x caret one
zero converts both digits. -/
theorem c10_unbraced_digit_runs :
    replace_math noCaps "x^10".toList = ['x', Char.ofNat 0x2071, Char.ofNat 0x2070]
    ∧ replace_math noCaps "x_10".toList = ['x', Char.ofNat 0x2081, Char.ofNat 0x2080]
    ∧ replace_math noCaps "x^ 10".toList = ['x', Char.ofNat 0x2071, Char.ofNat 0x2070]
    ∧ (∀ k d ds rest, (d :: ds).all Char.isDigit = true → headDigit rest = false →
        trySupPlain ('^' :: (List.replicate k ' ' ++ ((d :: ds) ++ rest))) =
          some ((d :: ds).map supChar, rest))
    ∧ (∀ k d ds rest, (d :: ds).all Char.isDigit = true → headDigit rest = false →
        trySubPlain ('_' :: (List.replicate k ' ' ++ ((d :: ds) ++ rest))) =
          some ((d :: ds).map subChar, rest)) := by
  refine ⟨by decide, by decide, by decide, ?_, ?_⟩
  · intro k d ds rest h h2
    have h1 := takeWhile_digit_append (d :: ds) rest h h2
    have hd : d.isDigit = true := by
      simp only [List.all_cons, Bool.and_eq_true] at h
      exact h.1
    simp only [trySupPlain]
    rw [skipSpaces_replicate]
    simp only [List.cons_append] at h1 ⊢
    rw [skipSpaces_cons_ne d _ (digit_ne_space d hd), h1.1, h1.2]
    simp
  · intro k d ds rest h h2
    have h1 := takeWhile_digit_append (d :: ds) rest h h2
    have hd : d.isDigit = true := by
      simp only [List.all_cons, Bool.and_eq_true] at h
      exact h.1
    simp only [trySubPlain]
    rw [skipSpaces_replicate]
    simp only [List.cons_append] at h1 ⊢
    rw [skipSpaces_cons_ne d _ (digit_ne_space d hd), h1.1, h1.2]
    simp

theorem c10_unbraced_digit_runs_witness :
    trySupPlain ('^' :: (List.replicate 1 ' ' ++ (['1', '0', '7'] ++ "q".toList))) =
      some (['1', '0', '7'].map supChar, "q".toList)
    ∧ trySubPlain ('_' :: (List.replicate 0 ' ' ++ (['9', '9'] ++ []))) =
        some (['9', '9'].map subChar, []) := by
  constructor
  · exact c10_unbraced_digit_runs.2.2.2.1 1 '1' ['0', '7'] "q".toList (by decide) (by decide)
  · exact c10_unbraced_digit_runs.2.2.2.2 0 '9' ['9'] [] (by decide) (by decide)
